import Mathlib

/-!
Verification of the patch-application engine of this repository
(`utils/code.py`): the `extract_diffs` SEARCH/REPLACE block extractor and
the `apply_diff` strategy cascade.  Text is modelled as `List Char`
(Python `str`), lines as `List (List Char)` (Python `list[str]`).
Python's whitespace predicates are modelled over ASCII whitespace, which
is the alphabet all claims range over.
-/

namespace DiffEngine

/-- Python `\s` / `str.isspace()` on the ASCII range:
space, tab, newline, carriage return, vertical tab, form feed. -/
def isPySpace (c : Char) : Bool :=
  c = ' ' || c = '\t' || c = '\n' || c = '\x0d' || c = '\x0b' || c = '\x0c'

/-- Python `str.lstrip()`. -/
def stripWsL (s : List Char) : List Char := s.dropWhile isPySpace

/-- Python `str.rstrip()`: drop trailing whitespace. -/
def stripWsR : List Char → List Char
  | [] => []
  | c :: cs =>
    match stripWsR cs with
    | [] => if isPySpace c then [] else [c]
    | r => c :: r

/-- Python `str.strip()`. -/
def stripWs (s : List Char) : List Char := stripWsL (stripWsR s)

/-- Python `str.rstrip("\n")`: drop trailing newline characters only. -/
def rstripNl : List Char → List Char
  | [] => []
  | c :: cs =>
    match rstripNl cs with
    | [] => if c = '\n' then [] else [c]
    | r => c :: r

/-- Python `text.split("\n")` (always returns at least one piece). -/
def splitNl : List Char → List (List Char)
  | [] => [[]]
  | c :: rest =>
    if c = '\n' then [] :: splitNl rest
    else
      match splitNl rest with
      | [] => [[c]]
      | l :: ls => (c :: l) :: ls

/-- Python `"\n".join(lines)`. -/
def interNl : List (List Char) → List Char
  | [] => []
  | [l] => l
  | l :: l' :: ls => l ++ '\n' :: interNl (l' :: ls)

/-- `pat` is a leading segment of `s`. -/
def hasPre : List Char → List Char → Bool
  | [], _ => true
  | _ :: _, [] => false
  | a :: as, b :: bs => a = b && hasPre as bs

/-- Python `pat in s`: `pat` occurs contiguously in `s`. -/
def occurs (pat : List Char) : List Char → Bool
  | [] => hasPre pat []
  | s@(_ :: cs) => hasPre pat s || occurs pat cs

/-- Suffix of `s` after the first occurrence of `pat`
(Python `s.split(pat, 1)[1]`); `none` when `pat` does not occur. -/
def afterFirst (pat : List Char) : List Char → Option (List Char)
  | [] => if hasPre pat [] then some ([].drop pat.length) else none
  | s@(_ :: cs) =>
    if hasPre pat s then some (s.drop pat.length) else afterFirst pat cs

/-- Python `s.replace(old, new, 1)` for non-empty `old` (callers guard this). -/
def replaceFirst (pat repl : List Char) : List Char → List Char
  | [] => []
  | s@(c :: cs) =>
    if hasPre pat s then repl ++ s.drop pat.length
    else c :: replaceFirst pat repl cs

/-- Python slice assignment `ls[i:j] = repl`. -/
def splice (ls : List α) (i j : Nat) (repl : List α) : List α :=
  ls.take i ++ repl ++ ls.drop j

/-- `ls[i:i+n]`. -/
def sliceL (ls : List α) (i n : Nat) : List α := (ls.drop i).take n

/-- First index in `[i, i+k)` satisfying `p`. -/
def firstHit (p : Nat → Bool) : Nat → Nat → Option Nat
  | _, 0 => none
  | i, k + 1 => if p i then some i else firstHit p (i + 1) k

/-- Index of the first list element satisfying `p`. -/
def firstIdxP (p : α → Bool) : List α → Option Nat
  | [] => none
  | x :: xs => if p x then some 0 else (firstIdxP p xs).map (· + 1)

/-- Newline normalization of `apply_diff`/`extract_diffs`:
`replace("\r\n","\n").replace("\r","\n")` fused into one scan. -/
def normNl : List Char → List Char
  | [] => []
  | [c] => if c = '\x0d' then ['\n'] else [c]
  | c :: d :: rest =>
    if c = '\x0d' then
      if d = '\n' then '\n' :: normNl rest else '\n' :: normNl (d :: rest)
    else c :: normNl (d :: rest)

/-! ## The `extract_diffs` block extractor

`extract_diffs` normalizes newlines, removes markdown code-fence lines
with two `re.sub` passes, then runs `re.findall` with the pattern

  `<<<<<<<\s*SEARCH\s*\n (.*?) \n?=======\s*\n (.*?) \n?>>>>>>>\s*REPLACE`

(`DOTALL`).  The matcher below is that pattern's backtracking semantics
specialized to it.  The greedy `\s*\n` components commit to the last
newline of the maximal whitespace run: an earlier-newline backtrack would
shift only whitespace into the adjacent unconstrained lazy group and reach
the identical continuation, so commitment does not change matchability. -/

/-- Python `\w` of the fence pattern `[\w-]` (ASCII model). -/
def wordChar (c : Char) : Bool := c.isAlphanum || c = '_' || c = '-'

/-- Drop the literal `pat` from the head of `s`, or fail. -/
def dropLit (pat s : List Char) : Option (List Char) :=
  if hasPre pat s then some (s.drop pat.length) else none

/-- Skip the maximal whitespace run (`\s*` before a non-whitespace literal). -/
def dropWs (s : List Char) : List Char := s.dropWhile isPySpace

/-- `\s*\n` with greedy `\s*`: return the suffix after the last newline of
the leading maximal whitespace run; fail when that run has no newline. -/
def afterLastNl : List Char → Option (List Char)
  | [] => none
  | c :: cs =>
    if isPySpace c then
      match afterLastNl cs with
      | some r => some r
      | none => if c = '\n' then some cs else none
    else none

/-- After an opening-fence `` ``` `` at line start: `[\w-]*` then a newline;
returns the rest after the newline. -/
def fenceTail : List Char → Option (List Char)
  | [] => none
  | '\n' :: rest => some rest
  | c :: rest => if wordChar c then fenceTail rest else none

/-- First `re.sub(r"^```[\w-]*\n", "", text, flags=re.MULTILINE)` pass:
drop every whole line that is an opening code fence. -/
def fenceSub1 : Nat → List Char → Bool → List Char
  | 0, s, _ => s
  | _ + 1, [], _ => []
  | fuel + 1, s@(c :: cs), atStart =>
    if atStart then
      match (if hasPre "```".data s then fenceTail (s.drop 3) else none) with
      | some rest => fenceSub1 fuel rest true
      | none => c :: fenceSub1 fuel cs (c = '\n')
    else c :: fenceSub1 fuel cs (c = '\n')

/-- Resolve `\s*$` (MULTILINE) after a closing fence greedily: largest
whitespace segment ending right before a newline or at end of input;
returns the unconsumed suffix. -/
def dollarCut : List Char → Option (List Char)
  | [] => some []
  | c :: cs =>
    match (if isPySpace c then dollarCut cs else none) with
    | some r => some r
    | none => if c = '\n' then some (c :: cs) else none

/-- Second `re.sub(r"\n```\s*$", "\n", text, flags=re.MULTILINE)` pass. -/
def fenceSub2 : Nat → List Char → List Char
  | 0, s => s
  | _ + 1, [] => []
  | fuel + 1, '\n' :: rest =>
    if hasPre "```".data rest then
      match dollarCut (rest.drop 3) with
      | some rem => '\n' :: fenceSub2 fuel rem
      | none => '\n' :: fenceSub2 fuel rest
    else '\n' :: fenceSub2 fuel rest
  | fuel + 1, c :: cs => c :: fenceSub2 fuel cs

/-- `\n?>>>>>>>\s*REPLACE` at the current position: returns the rest after
`REPLACE`.  A leading newline forces the `\n?` branch (`>` is not `\n`). -/
def closerAt (cs : List Char) : Option (List Char) :=
  (if cs.head? = some '\n' then dropLit ">>>>>>>".data cs.tail
   else dropLit ">>>>>>>".data cs).bind
    (fun xs => dropLit "REPLACE".data (dropWs xs))

/-- Lazy scan of the REPLACE group: smallest group whose continuation
matches the closing marker; returns `(group2, rest-after-match)`. -/
def scanCloser : List Char → Option (List Char × List Char)
  | [] => (closerAt []).map (fun r => ([], r))
  | c :: cs =>
    match closerAt (c :: cs) with
    | some r => some ([], r)
    | none => (scanCloser cs).map (fun p => (c :: p.1, p.2))

/-- `\n?=======\s*\n` at the current position: returns the suffix where the
REPLACE group starts. -/
def sepAt (cs : List Char) : Option (List Char) :=
  (if cs.head? = some '\n' then dropLit "=======".data cs.tail
   else dropLit "=======".data cs).bind afterLastNl

/-- Lazy scan of the SEARCH group: smallest group followed by a separator
whose own REPLACE part completes; on an incomplete separator the group
keeps growing (regex backtracking).  Returns `(group1, group2, rest)`. -/
def scanSep : List Char → Option (List Char × List Char × List Char)
  | [] =>
    match sepAt [] with
    | some g2txt => (scanCloser g2txt).map (fun p => ([], p.1, p.2))
    | none => none
  | c :: cs =>
    match (sepAt (c :: cs)).bind scanCloser with
    | some p => some ([], p.1, p.2)
    | none => (scanSep cs).map (fun t => (c :: t.1, t.2.1, t.2.2))

/-- One attempt of the whole pattern at the current position. -/
def tryMatch (s : List Char) : Option (List Char × List Char × List Char) := do
  let s1 ← dropLit "<<<<<<<".data s
  let s2 ← dropLit "SEARCH".data (dropWs s1)
  let s3 ← afterLastNl s2
  scanSep s3

/-- `re.findall`: leftmost matches, scanning resumes after each match. -/
def scanAll : Nat → List Char → List (List Char × List Char)
  | 0, _ => []
  | _ + 1, [] => []
  | fuel + 1, s@(_ :: cs) =>
    match tryMatch s with
    | some (g1, g2, rest) => (g1, g2) :: scanAll fuel rest
    | none => scanAll fuel cs

/-- `extract_diffs` on character lists: normalize newlines, strip fences,
find all blocks, right-strip trailing newlines of each side. -/
def extractDiffsL (t : List Char) : List (List Char × List Char) :=
  let t1 := normNl t
  let t2 := fenceSub1 t1.length t1 true
  let t3 := fenceSub2 t2.length t2
  (scanAll t3.length t3).map (fun p => (rstripNl p.1, rstripNl p.2))

/-- `extract_diffs` at the `String` interface. -/
def extract_diffs (diff_text : String) : List (String × String) :=
  (extractDiffsL diff_text.data).map (fun p => (⟨p.1⟩, ⟨p.2⟩))

/-! ## The `apply_diff` strategy cascade -/

/-- The DEEPEVOLVE anchor start sentinel (`ANCHOR_START_PREFIX`). -/
def anchorStartPre : List Char := "### >>> DEEPEVOLVE-BLOCK-START:".data

/-- The DEEPEVOLVE anchor end sentinel (`ANCHOR_END_PREFIX`). -/
def anchorEndPre : List Char := "### <<< DEEPEVOLVE-BLOCK-END".data

/-- The label a line carries when it contains the start sentinel:
text after the first occurrence of the sentinel, stripped. -/
def labelOf (line : List Char) : Option (List Char) :=
  (afterFirst anchorStartPre line).map stripWs

/-- `_extract_anchor_label`: label of the first line carrying the sentinel. -/
def extractAnchorLabel : List (List Char) → Option (List Char)
  | [] => none
  | l :: ls =>
    match labelOf l with
    | some lab => some lab
    | none => extractAnchorLabel ls

/-- `_find_anchor_region`: first start sentinel with the given label, then
the first end sentinel after it (inclusive index pair). -/
def findAnchorRegion (lls : List (List Char)) (lab : List Char) :
    Option (Nat × Nat) :=
  match firstIdxP (fun l => labelOf l = some lab) lls with
  | none => none
  | some s =>
    match firstIdxP (fun l => occurs anchorEndPre l) (lls.drop (s + 1)) with
    | none => none
    | some k => some (s, s + 1 + k)

/-- `_rstrip_lines`. -/
def rstripLines (lls : List (List Char)) : List (List Char) :=
  lls.map stripWsR

/-- `_strip_inline_comment`: cut an unquoted `#` and everything after it,
tracking single/double quotes and backslash escapes. -/
def stripInlineComment : List Char → Bool → Bool → Bool → List Char
  | [], _, _, _ => []
  | c :: cs, inS, inD, esc =>
    if esc then c :: stripInlineComment cs inS inD false
    else if c = '\\' then c :: stripInlineComment cs inS inD true
    else if c = Char.ofNat 39 && !inD then c :: stripInlineComment cs (!inS) inD false
    else if c = '"' && !inS then c :: stripInlineComment cs inS (!inD) false
    else if c = '#' && !inS && !inD then []
    else c :: stripInlineComment cs inS inD false

/-- `_normalize_no_comment`: strip inline comments, then right-strip. -/
def normNoComment (lls : List (List Char)) : List (List Char) :=
  lls.map (fun l => stripWsR (stripInlineComment l false false false))

/-- Uniform Levenshtein distance (rapidfuzz `Levenshtein.distance` with
default weights), computed row by row. -/
def levNext (c : Char) : List Char → List Nat → Nat → Nat → List Nat
  | [], _, _, _ => []
  | _ :: _, [], _, _ => []
  | b :: bs, oj :: rest, diag, left =>
    let cur := min (min (left + 1) (oj + 1)) (diag + if b = c then 0 else 1)
    cur :: levNext c bs rest oj cur

/-- One DP row advance for `levDist`. -/
def levRow (b : List Char) (row : List Nat) (c : Char) : List Nat :=
  match row with
  | [] => []
  | o0 :: orest => (o0 + 1) :: levNext c b orest o0 (o0 + 1)

/-- `levDist a b` is the Levenshtein edit distance between `a` and `b`. -/
def levDist (a b : List Char) : Nat :=
  (a.foldl (levRow b) (List.range (b.length + 1))).getLastD 0

/-- `1 - Levenshtein.normalized_distance a b`: similarity in `[0,1]`,
with the distance divided by the longer length (rational model of the
engine's arithmetic).  Written as the single fraction `(m - d) / m` so the
value is kernel-computable; `scoreQ_eq` below restates it as `1 - d / m`. -/
def scoreQ (a b : List Char) : ℚ :=
  let m := max a.length b.length
  if m = 0 then 1 else mkRat ((m : Int) - levDist a b) m

/-- Window index pairs `(i, i + window_len)` visited by the fuzzy loops:
window lengths from `len(search_lines) - 2` to `len(search_lines) + 2`
clamped to `[1, len(result_lines)]`, sliding positions in order. -/
def fuzzyWindows (lineCount n : Nat) : List (Nat × Nat) :=
  ((List.range (min lineCount (n + 2) + 1 - max 1 (n - 2))).map
      (· + max 1 (n - 2))).flatMap
    (fun wl => (List.range (lineCount + 1 - wl)).map (fun i => (i, i + wl)))

/-- Mutable line buffer plus the per-block `matched` flag. -/
abbrev BlockState := List (List Char) × Bool

/-- The anchor region a block's search lines select in the buffer:
`if anchor_label: _find_anchor_region(result_lines, anchor_label)`
(an empty label is falsy in Python and selects nothing). -/
def anchorRegionOf (sl lls : List (List Char)) : Option (Nat × Nat) :=
  match extractAnchorLabel sl with
  | some lab => if lab ≠ [] then findAnchorRegion lls lab else none
  | none => none

/-- Anchor strategy: a non-empty label in the search lines plus a located
sentinel region replaces the whole region (end line included). -/
def anchorStage (sl rl : List (List Char)) (lls : List (List Char)) :
    BlockState :=
  match anchorRegionOf sl lls with
  | some (s, e) => (splice lls s (e + 1) rl, true)
  | none => (lls, false)

/-- First window position whose right-stripped lines equal `searchNorm`. -/
def windowScan (lls searchNorm : List (List Char)) (n : Nat) : Option Nat :=
  if n ≤ lls.length then
    firstHit (fun i => rstripLines (sliceL lls i n) = searchNorm)
      0 (lls.length + 1 - n)
  else none

/-- Trim-tolerant exact window strategy.  In the source this loop is not
guarded by `matched`, so it also runs after a successful anchor match. -/
def windowStage (sl rl : List (List Char)) (s : BlockState) : BlockState :=
  match windowScan s.1 (rstripLines sl) sl.length with
  | some i => (splice s.1 i (i + sl.length) rl, true)
  | none => s

/-- First window position matching after comment stripping. -/
def commentScan (lls searchNC : List (List Char)) (n : Nat) : Option Nat :=
  if n ≤ lls.length then
    firstHit (fun i => normNoComment (sliceL lls i n) = searchNC)
      0 (lls.length + 1 - n)
  else none

/-- Comment-insensitive window strategy (guarded by `matched`). -/
def commentStage (sl rl : List (List Char)) (s : BlockState) : BlockState :=
  if s.2 then s
  else if sl.isEmpty then s
  else
    match commentScan s.1 (normNoComment sl) sl.length with
    | some i => (splice s.1 i (i + sl.length) rl, true)
    | none => s

/-- Flat and trim-tolerant substring fallbacks on the joined snapshot. -/
def substrStage (sl rl : List (List Char)) (s : BlockState) : BlockState :=
  if s.2 then s
  else
    let text := interNl s.1
    let ste := interNl sl
    let rte := interNl rl
    if ste ≠ [] && occurs ste text then
      (splitNl (replaceFirst ste rte text), true)
    else
      let no := interNl (rstripLines s.1)
      let ns := interNl (rstripLines sl)
      let nr := interNl (rstripLines rl)
      if ns ≠ [] && occurs ns no then (splitNl (replaceFirst ns nr no), true)
      else s

/-- `score > best_score` accumulator update of the fuzzy loop. -/
def bestStep (f : α → ℚ) (acc : Option α × ℚ) (p : α) : Option α × ℚ :=
  if acc.2 < f p then (some p, f p) else acc

/-- Score the code assigns to the window `(i, j)` of `lls` against the
joined search text `ste`. -/
def windowScore (lls : List (List Char)) (ste : List Char)
    (p : Nat × Nat) : ℚ :=
  scoreQ ste (interNl (sliceL lls p.1 (p.2 - p.1)))

/-- The fuzzy search of lines 384–403: track the strictly best-scoring
window over `fuzzyWindows`, accept it only when the best score reaches
`0.80`. -/
def fuzzyStep (lls sl : List (List Char)) : Option (Nat × Nat) :=
  let best :=
    (fuzzyWindows lls.length sl.length).foldl
      (bestStep (windowScore lls (interNl sl)))
      ((none : Option (Nat × Nat)), (-1 : ℚ))
  match best with
  | (some r, bs) => if mkRat 4 5 ≤ bs then some r else none
  | (none, _) => none

/-- Fuzzy window strategy (guarded by `matched`). -/
def fuzzyStage (sl rl : List (List Char)) (s : BlockState) : BlockState :=
  if s.2 then s
  else if sl.isEmpty then s
  else
    match fuzzyStep s.1 sl with
    | some (a, b) => (splice s.1 a b rl, true)
    | none => s

/-- Number of lines the signature-extension `while` loop consumes:
blank lines, lines indented deeper than the header, and `@`-decorator
lines not back at header indent. -/
def sigEnd (indent : Nat) : List (List Char) → Nat
  | [] => 0
  | line :: rest =>
    if stripWs line = [] then 1 + sigEnd indent rest
    else if line.length - (stripWsL line).length ≤ indent
            && !hasPre "@".data (stripWs line) then 0
    else 1 + sigEnd indent rest

/-- Signature-extension strategy: a `def `/`class ` first search line found
verbatim (stripped) extends through the indented body. -/
def sigStage (sl rl : List (List Char)) (s : BlockState) : BlockState :=
  if s.2 then s
  else if sl.isEmpty then s
  else
    let firstNE := (sl.find? (fun l => !(stripWs l).isEmpty)).getD []
    let sig := stripWs firstNE
    if hasPre "def ".data sig || hasPre "class ".data sig then
      match firstIdxP (fun line => stripWs line = sig) s.1 with
      | some sigIdx =>
        let line := (s.1.drop sigIdx).headD []
        let indent := line.length - (stripWsL line).length
        let endIdx := sigIdx + 1 + sigEnd indent (s.1.drop (sigIdx + 1))
        (splice s.1 sigIdx endIdx rl, true)
      | none => s
    else s

/-- Condition of lines 431–437: the stripped replace text already occurs
in the right-stripped buffer. -/
def presentCond (lls rl : List (List Char)) : Bool :=
  let rn := stripWs (interNl (rstripLines rl))
  rn ≠ [] && occurs rn (interNl (rstripLines lls))

/-- Final fallback: mark the block matched (suppressing the failure log)
when its replace text is already present; the buffer is untouched. -/
def presentStage (rl : List (List Char)) (s : BlockState) : BlockState :=
  if s.2 then s else (s.1, presentCond s.1 rl)

/-- Strategies 1–7 of one block, before the replace-present fallback. -/
def preStages (sl rl : List (List Char)) (lls : List (List Char)) :
    BlockState :=
  sigStage sl rl (fuzzyStage sl rl (substrStage sl rl
    (commentStage sl rl (windowStage sl rl (anchorStage sl rl lls)))))

/-- Processing of one extracted `(search, replace)` block against the
current buffer; returns the new buffer and the `matched` flag. -/
def applyOneBlock (lls : List (List Char)) (st rt : List Char) : BlockState :=
  let sl := splitNl st
  let rl := splitNl rt
  presentStage rl (preStages sl rl lls)

/-- The joined candidate output of `apply_diff` before the safety net. -/
def candidateL (oc dt : List Char) : List Char :=
  interNl ((extractDiffsL (normNl dt)).foldl
    (fun ls p => (applyOneBlock ls p.1 p.2).1) (splitNl (normNl oc)))

/-- A bare conflict marker of the safety net occurs in `s`. -/
def anyMarker (s : List Char) : Bool :=
  occurs "<<<<<<<".data s || occurs "=======".data s || occurs ">>>>>>>".data s

/-- `apply_diff` on character lists: candidate output unless the safety
net finds a bare conflict marker, in which case the (normalized)
original is returned. -/
def applyDiffL (oc dt : List Char) : List Char :=
  if anyMarker (candidateL oc dt) then normNl oc else candidateL oc dt

/-- `apply_diff` at the `String` interface. -/
def apply_diff (original_code diff_text : String) : String :=
  ⟨applyDiffL original_code.data diff_text.data⟩

/-- One of the three full diff-delimiter tokens occurs in `s`. -/
def anyToken (s : List Char) : Bool :=
  occurs "<<<<<<< SEARCH".data s || occurs "=======".data s ||
    occurs ">>>>>>> REPLACE".data s

/-- The final (blank-noise aware) line of a text is whitespace-only. -/
def endsWithBlankLine (s : List Char) : Bool :=
  match (splitNl s).getLast? with
  | some l => !l.isEmpty && l.all isPySpace
  | none => false

/-! ## Basic lemmas about the text primitives -/

theorem splitNl_ne_nil (s : List Char) : splitNl s ≠ [] := by
  match s with
  | [] => simp [splitNl]
  | c :: rest =>
    rw [splitNl]
    split
    · simp
    · split <;> simp

theorem interNl_splitNl (s : List Char) : interNl (splitNl s) = s := by
  induction s with
  | nil => rfl
  | cons c rest ih =>
    rw [splitNl]
    split
    · rename_i hc
      subst hc
      have h := splitNl_ne_nil rest
      match hsp : splitNl rest with
      | [] => exact absurd hsp h
      | l :: ls =>
        rw [hsp] at ih
        simpa [interNl] using ih
    · have h := splitNl_ne_nil rest
      match hsp : splitNl rest with
      | [] => exact absurd hsp h
      | [l] =>
        rw [hsp] at ih
        simpa [interNl] using ih
      | l :: l' :: ls =>
        rw [hsp] at ih
        simpa [interNl] using ih

theorem normNl_no_cr (s : List Char) : '\x0d' ∉ normNl s := by
  induction s using normNl.induct <;> simp_all [normNl] <;>
    (intro hc; exact ‹¬_ = '\x0d'› hc.symm)

theorem normNl_of_no_cr (s : List Char) (h : '\x0d' ∉ s) : normNl s = s := by
  induction s using normNl.induct <;> simp_all [normNl]

theorem normNl_idem (s : List Char) : normNl (normNl s) = normNl s :=
  normNl_of_no_cr _ (normNl_no_cr s)

theorem extractDiffsL_normNl (t : List Char) :
    extractDiffsL (normNl t) = extractDiffsL t := by
  unfold extractDiffsL
  rw [normNl_idem]

theorem hasPre_append_left (p q s : List Char) (h : hasPre (p ++ q) s = true) :
    hasPre p s = true := by
  induction p generalizing s with
  | nil => rfl
  | cons a as ih =>
    match s with
    | [] => simp [hasPre] at h
    | b :: bs =>
      simp only [List.cons_append, hasPre, Bool.and_eq_true] at h ⊢
      exact ⟨h.1, ih bs h.2⟩

theorem occurs_append_left (p q s : List Char) (h : occurs (p ++ q) s = true) :
    occurs p s = true := by
  induction s with
  | nil =>
    simp only [occurs] at h ⊢
    exact hasPre_append_left p q [] h
  | cons c cs ih =>
    simp only [occurs, Bool.or_eq_true] at h ⊢
    rcases h with h | h
    · exact Or.inl (hasPre_append_left p q _ h)
    · exact Or.inr (ih h)

theorem anyToken_marker (s : List Char) (h : anyToken s = true) :
    anyMarker s = true := by
  simp only [anyToken, Bool.or_eq_true] at h
  simp only [anyMarker, Bool.or_eq_true]
  rcases h with (h | h) | h
  · exact Or.inl (Or.inl
      (occurs_append_left "<<<<<<<".data " SEARCH".data s (by exact h)))
  · exact Or.inl (Or.inr h)
  · exact Or.inr (occurs_append_left ">>>>>>>".data " REPLACE".data s (by exact h))

theorem rstripNl_getLast (g : List Char) : (rstripNl g).getLast? ≠ some '\n' := by
  induction g with
  | nil => simp [rstripNl]
  | cons c cs ih =>
    rw [rstripNl]
    rcases hr : rstripNl cs with _ | ⟨r, rs⟩
    · simp only [hr]
      split
      · simp
      · rename_i hc
        simp [hc]
    · rw [hr] at ih
      simp only [hr]
      simpa [List.getLast?_cons_cons] using ih

theorem rstripNl_head (g : List Char) :
    rstripNl g = [] ∨ (rstripNl g).head? = g.head? := by
  match g with
  | [] => exact Or.inl rfl
  | c :: cs =>
    rw [rstripNl]
    rcases hr : rstripNl cs with _ | ⟨r, rs⟩
    · simp only [hr]
      split
      · exact Or.inl rfl
      · exact Or.inr rfl
    · simp only [hr]
      exact Or.inr rfl

theorem firstHit_some (p : Nat → Bool) (i k j : Nat)
    (h : firstHit p i k = some j) :
    i ≤ j ∧ j < i + k ∧ p j = true ∧ ∀ m, i ≤ m → m < j → p m = false := by
  induction k generalizing i with
  | zero => simp [firstHit] at h
  | succ k ih =>
    rw [firstHit] at h
    split at h
    · rename_i hp
      cases h
      exact ⟨le_refl _, by omega, hp, fun m h1 h2 => ((by omega : False)).elim⟩
    · rename_i hp
      obtain ⟨h1, h2, h3, h4⟩ := ih (i + 1) h
      refine ⟨by omega, by omega, h3, fun m hm1 hm2 => ?_⟩
      rcases Nat.eq_or_lt_of_le hm1 with rfl | hlt
      · simpa using hp
      · exact h4 m (by omega) hm2

theorem firstIdxP_some (p : α → Bool) (l : List α) (n : Nat)
    (h : firstIdxP p l = some n) :
    ∃ hn : n < l.length, p (l.get ⟨n, hn⟩) = true ∧
      ∀ m (hm : m < l.length), m < n → p (l.get ⟨m, hm⟩) = false := by
  induction l generalizing n with
  | nil => simp [firstIdxP] at h
  | cons x xs ih =>
    rw [firstIdxP] at h
    split at h
    · rename_i hp
      cases h
      exact ⟨by simp, by simpa using hp, fun m hm hm0 => by omega⟩
    · rename_i hp
      match n, h with
      | n' + 1, h =>
        simp only [Option.map_eq_some'] at h
        obtain ⟨a, ha, hEq⟩ := h
        have haEq : a = n' := by omega
        subst haEq
        obtain ⟨hn, h1, h2⟩ := ih a ha
        refine ⟨by simpa using hn, by simpa using h1, fun m hm hm0 => ?_⟩
        match m with
        | 0 => simpa using hp
        | m' + 1 =>
          have := h2 m' (by simpa using hm) (by omega)
          simpa using this
      | 0, h =>
        exfalso
        simp only [Option.map_eq_some'] at h
        obtain ⟨a, _, ha⟩ := h
        omega

theorem firstIdxP_isSome (p : α → Bool) (l : List α)
    (h : ∃ i, ∃ hi : i < l.length, p (l.get ⟨i, hi⟩) = true) :
    ∃ n, firstIdxP p l = some n := by
  induction l with
  | nil => obtain ⟨i, hi, _⟩ := h; simp at hi
  | cons x xs ih =>
    rw [firstIdxP]
    split
    · exact ⟨0, rfl⟩
    · rename_i hp
      obtain ⟨i, hi, hpi⟩ := h
      match i with
      | 0 => exact absurd (by simpa using hpi) (by simpa using hp)
      | i' + 1 =>
        obtain ⟨n, hn⟩ := ih ⟨i', by simpa using hi, by simpa using hpi⟩
        exact ⟨n + 1, by rw [hn]; rfl⟩

/-! ## Head/last-character structure of extracted groups -/

theorem afterLastNl_none_head (cs : List Char) (h : afterLastNl cs = none) :
    cs.head? ≠ some '\n' := by
  match cs with
  | [] => simp
  | c :: cs' =>
    rw [afterLastNl] at h
    intro hEq
    simp only [List.head?_cons, Option.some.injEq] at hEq
    subst hEq
    rw [if_pos (by simp [isPySpace])] at h
    rcases hr : afterLastNl cs' with _ | r <;> rw [hr] at h <;> simp at h

theorem afterLastNl_some_head (cs r : List Char) (h : afterLastNl cs = some r) :
    r.head? ≠ some '\n' := by
  induction cs generalizing r with
  | nil => simp [afterLastNl] at h
  | cons c cs' ih =>
    rw [afterLastNl] at h
    by_cases hws : isPySpace c
    · rw [if_pos hws] at h
      rcases hr : afterLastNl cs' with _ | r' <;> rw [hr] at h
      · simp only at h
        split at h
        · simp only [Option.some.injEq] at h
          subst h
          exact afterLastNl_none_head cs' hr
        · simp at h
      · simp only [Option.some.injEq] at h
        subst h
        exact ih r' hr
    · rw [if_neg hws] at h
      simp at h

theorem scanCloser_head (cs : List Char) (g2 rest : List Char)
    (h : scanCloser cs = some (g2, rest)) : g2 = [] ∨ g2.head? = cs.head? := by
  induction cs generalizing g2 rest with
  | nil =>
    rw [scanCloser] at h
    rcases hc : closerAt [] with _ | r
    · rw [hc] at h; simp at h
    · rw [hc] at h
      simp only [Option.map_some'] at h
      cases h
      exact Or.inl rfl
  | cons c cs' ih =>
    rw [scanCloser] at h
    split at h
    · cases h
      exact Or.inl rfl
    · simp only [Option.map_eq_some'] at h
      obtain ⟨p, hp, hEq⟩ := h
      cases hEq
      exact Or.inr rfl

theorem sepAt_some_head (cs r : List Char) (h : sepAt cs = some r) :
    r.head? ≠ some '\n' := by
  rw [sepAt] at h
  simp only [Option.bind_eq_some] at h
  obtain ⟨xs, _, hx⟩ := h
  exact afterLastNl_some_head xs r hx

theorem scanSep_g2_head (cs : List Char) (g1 g2 rest : List Char)
    (h : scanSep cs = some (g1, g2, rest)) : g2.head? ≠ some '\n' := by
  induction cs generalizing g1 g2 rest with
  | nil =>
    rw [scanSep] at h
    rcases hs : sepAt [] with _ | g2txt
    · rw [hs] at h; simp at h
    · rw [hs] at h
      simp only [Option.map_eq_some'] at h
      obtain ⟨p, hp, hEq⟩ := h
      cases hEq
      rcases scanCloser_head g2txt p.1 p.2 (by rw [← hp]) with hnil | hhead
      · simp [hnil]
      · rw [hhead]
        exact sepAt_some_head [] g2txt hs
  | cons c cs' ih =>
    rw [scanSep] at h
    split at h
    · rename_i p hp
      cases h
      rcases hs : sepAt (c :: cs') with _ | g2txt
      · rw [hs] at hp; simp at hp
      · rw [hs] at hp
        simp only [Option.some_bind] at hp
        rcases scanCloser_head g2txt p.1 p.2 (by rw [hp]) with hnil | hhead
        · simp [hnil]
        · rw [hhead]
          exact sepAt_some_head _ g2txt hs
    · simp only [Option.map_eq_some'] at h
      obtain ⟨t, ht, hEq⟩ := h
      cases hEq
      exact ih t.1 t.2.1 t.2.2 (by rw [ht])

theorem scanSep_g1_head (cs : List Char) (g1 g2 rest : List Char)
    (h : scanSep cs = some (g1, g2, rest)) :
    g1 = [] ∨ g1.head? = cs.head? := by
  match cs with
  | [] =>
    rw [scanSep] at h
    rcases hs : sepAt [] with _ | g2txt
    · rw [hs] at h; simp at h
    · rw [hs] at h
      simp only [Option.map_eq_some'] at h
      obtain ⟨p, _, hEq⟩ := h
      cases hEq
      exact Or.inl rfl
  | c :: cs' =>
    rw [scanSep] at h
    split at h
    · cases h
      exact Or.inl rfl
    · simp only [Option.map_eq_some'] at h
      obtain ⟨t, _, hEq⟩ := h
      cases hEq
      exact Or.inr rfl

theorem tryMatch_heads (s : List Char) (g1 g2 rest : List Char)
    (h : tryMatch s = some (g1, g2, rest)) :
    g1.head? ≠ some '\n' ∧ g2.head? ≠ some '\n' := by
  rw [tryMatch] at h
  simp only [Option.bind_eq_bind, Option.bind_eq_some] at h
  obtain ⟨s1, _, s2, _, s3, hs3, hscan⟩ := h
  refine ⟨?_, scanSep_g2_head s3 g1 g2 rest hscan⟩
  rcases scanSep_g1_head s3 g1 g2 rest hscan with hnil | hhead
  · simp [hnil]
  · rw [hhead]
    exact afterLastNl_some_head s2 s3 hs3

theorem scanAll_heads (fuel : Nat) (s : List Char) (p : List Char × List Char)
    (h : p ∈ scanAll fuel s) :
    p.1.head? ≠ some '\n' ∧ p.2.head? ≠ some '\n' := by
  induction fuel generalizing s with
  | zero => simp [scanAll] at h
  | succ fuel ih =>
    match s with
    | [] => simp [scanAll] at h
    | c :: cs =>
      rw [scanAll] at h
      split at h
      · rename_i g1 g2 rest hm
        rcases List.mem_cons.1 h with rfl | h
        · exact tryMatch_heads _ g1 g2 rest hm
        · exact ih rest h
      · exact ih cs h

/-! ## Structure lemmas for the strategy cascade -/

theorem windowStage_flag (sl rl : List (List Char)) (s : BlockState)
    (h : s.2 = true) : (windowStage sl rl s).2 = true := by
  rw [windowStage]
  rcases hw : windowScan s.1 (rstripLines sl) sl.length with _ | i
  · exact h
  · rfl

theorem windowStage_false (sl rl : List (List Char)) (s : BlockState)
    (h : (windowStage sl rl s).2 = false) : windowStage sl rl s = s := by
  rw [windowStage] at h ⊢
  rcases hw : windowScan s.1 (rstripLines sl) sl.length with _ | i
  · rfl
  · rw [hw] at h
    simp at h

theorem anchorStage_false (sl rl lls : List (List Char))
    (h : (anchorStage sl rl lls).2 = false) :
    (anchorStage sl rl lls).1 = lls := by
  rw [anchorStage] at h ⊢
  rcases hr : anchorRegionOf sl lls with _ | ⟨a, b⟩ <;> simp only [hr] at h ⊢
  simp_all

theorem commentStage_skip (sl rl : List (List Char)) (s : BlockState)
    (h : s.2 = true) : commentStage sl rl s = s := by
  rw [commentStage, if_pos h]

theorem commentStage_false (sl rl : List (List Char)) (s : BlockState)
    (h : (commentStage sl rl s).2 = false) : commentStage sl rl s = s := by
  rw [commentStage] at h ⊢
  by_cases h1 : s.2 = true
  · rw [if_pos h1]
  · rw [if_neg h1] at h ⊢
    by_cases h2 : sl.isEmpty = true
    · rw [if_pos h2]
    · rw [if_neg h2] at h ⊢
      rcases hc : commentScan s.1 (normNoComment sl) sl.length with _ | i <;>
          simp only [hc] at h ⊢
      simp_all

theorem substrStage_skip (sl rl : List (List Char)) (s : BlockState)
    (h : s.2 = true) : substrStage sl rl s = s := by
  rw [substrStage, if_pos h]

theorem substrStage_false (sl rl : List (List Char)) (s : BlockState)
    (h : (substrStage sl rl s).2 = false) : substrStage sl rl s = s := by
  rw [substrStage] at h ⊢
  by_cases h1 : s.2 = true
  · rw [if_pos h1]
  · rw [if_neg h1] at h ⊢
    simp only at h ⊢
    by_cases h2 : (interNl sl ≠ [] && occurs (interNl sl) (interNl s.1)) = true
    · rw [if_pos h2] at h
      simp at h
    · rw [if_neg h2] at h ⊢
      by_cases h3 : (interNl (rstripLines sl) ≠ [] &&
          occurs (interNl (rstripLines sl)) (interNl (rstripLines s.1))) = true
      · rw [if_pos h3] at h
        simp at h
      · rw [if_neg h3]

theorem fuzzyStage_skip (sl rl : List (List Char)) (s : BlockState)
    (h : s.2 = true) : fuzzyStage sl rl s = s := by
  rw [fuzzyStage, if_pos h]

theorem fuzzyStage_false (sl rl : List (List Char)) (s : BlockState)
    (h : (fuzzyStage sl rl s).2 = false) : fuzzyStage sl rl s = s := by
  rw [fuzzyStage] at h ⊢
  by_cases h1 : s.2 = true
  · rw [if_pos h1]
  · rw [if_neg h1] at h ⊢
    by_cases h2 : sl.isEmpty = true
    · rw [if_pos h2]
    · rw [if_neg h2] at h ⊢
      rcases hf : fuzzyStep s.1 sl with _ | ⟨a, b⟩ <;> simp only [hf] at h ⊢
      simp_all

theorem sigStage_skip (sl rl : List (List Char)) (s : BlockState)
    (h : s.2 = true) : sigStage sl rl s = s := by
  rw [sigStage, if_pos h]

theorem sigStage_false (sl rl : List (List Char)) (s : BlockState)
    (h : (sigStage sl rl s).2 = false) : sigStage sl rl s = s := by
  rw [sigStage] at h ⊢
  by_cases h1 : s.2 = true
  · rw [if_pos h1]
  · rw [if_neg h1] at h ⊢
    by_cases h2 : sl.isEmpty = true
    · rw [if_pos h2]
    · rw [if_neg h2] at h ⊢
      simp only at h ⊢
      by_cases h3 : (hasPre "def ".data
            (stripWs ((sl.find? (fun l => !(stripWs l).isEmpty)).getD []))
          || hasPre "class ".data
            (stripWs ((sl.find? (fun l => !(stripWs l).isEmpty)).getD []))) = true
      · rw [if_pos h3] at h ⊢
        rcases hi : firstIdxP
            (fun line => stripWs line =
              stripWs ((sl.find? (fun l => !(stripWs l).isEmpty)).getD []))
            s.1 with _ | sigIdx <;> simp only [hi] at h ⊢
        simp_all
      · rw [if_neg h3]

theorem presentStage_skip (rl : List (List Char)) (s : BlockState)
    (h : s.2 = true) : presentStage rl s = s := by
  rw [presentStage, if_pos h]

theorem presentStage_false (rl : List (List Char)) (s : BlockState)
    (h : (presentStage rl s).2 = false) : presentStage rl s = s := by
  rw [presentStage] at h ⊢
  by_cases h1 : s.2 = true
  · rw [if_pos h1]
  · rw [if_neg h1] at h ⊢
    simp only at h
    rw [h, Prod.ext_iff]
    refine ⟨rfl, ?_⟩
    simp only [Bool.not_eq_true] at h1
    exact h1.symm

theorem preStages_false (sl rl lls : List (List Char))
    (h : (preStages sl rl lls).2 = false) : (preStages sl rl lls).1 = lls := by
  rw [preStages] at h ⊢
  have h5 := sigStage_false sl rl _ h
  rw [h5] at h ⊢
  have h4 := fuzzyStage_false sl rl _ h
  rw [h4] at h ⊢
  have h3 := substrStage_false sl rl _ h
  rw [h3] at h ⊢
  have h2 := commentStage_false sl rl _ h
  rw [h2] at h ⊢
  have h1 := windowStage_false sl rl _ h
  rw [h1] at h ⊢
  exact anchorStage_false sl rl lls h

theorem applyOneBlock_unchanged (lls : List (List Char)) (st rt : List Char)
    (h : (applyOneBlock lls st rt).2 = false) :
    (applyOneBlock lls st rt).1 = lls := by
  rw [applyOneBlock] at h ⊢
  have hp := presentStage_false _ _ h
  rw [hp] at h ⊢
  exact preStages_false _ _ lls h

/-! ## The best-window fold of the fuzzy strategy -/

theorem bestFold_snd_le (f : α → ℚ) (L : List α) (acc : Option α × ℚ) :
    acc.2 ≤ (L.foldl (bestStep f) acc).2 := by
  induction L generalizing acc with
  | nil => exact le_refl _
  | cons x xs ih =>
    rw [List.foldl_cons]
    refine le_trans ?_ (ih (bestStep f acc x))
    rw [bestStep]
    split
    · rename_i hlt
      exact le_of_lt hlt
    · exact le_refl _

theorem bestFold_ge_mem (f : α → ℚ) (L : List α) (acc : Option α × ℚ)
    (p : α) (hp : p ∈ L) : f p ≤ (L.foldl (bestStep f) acc).2 := by
  induction L generalizing acc with
  | nil => simp at hp
  | cons x xs ih =>
    rw [List.foldl_cons]
    rcases List.mem_cons.1 hp with rfl | hp
    · refine le_trans ?_ (bestFold_snd_le f xs (bestStep f acc p))
      rw [bestStep]
      split
      · exact le_refl _
      · rename_i hnlt
        exact le_of_not_lt hnlt
    · exact ih (bestStep f acc x) hp

theorem bestFold_result (f : α → ℚ) (L : List α) (acc : Option α × ℚ) :
    L.foldl (bestStep f) acc = acc ∨
      ∃ p ∈ L, L.foldl (bestStep f) acc = (some p, f p) := by
  induction L generalizing acc with
  | nil => exact Or.inl rfl
  | cons x xs ih =>
    rw [List.foldl_cons]
    rcases ih (bestStep f acc x) with hEq | ⟨p, hpL, hEq⟩
    · rw [hEq, bestStep]
      split
      · exact Or.inr ⟨x, List.mem_cons_self x xs, rfl⟩
      · exact Or.inl rfl
    · exact Or.inr ⟨p, List.mem_cons_of_mem x hpL, hEq⟩

theorem mem_fuzzyWindows (lineCount n : Nat) (p : Nat × Nat) :
    p ∈ fuzzyWindows lineCount n ↔
      ∃ wl, max 1 (n - 2) ≤ wl ∧ wl ≤ min lineCount (n + 2) ∧
        p.2 = p.1 + wl ∧ p.1 < lineCount + 1 - wl := by
  rw [fuzzyWindows]
  simp only [List.mem_flatMap, List.mem_map, List.mem_range]
  constructor
  · rintro ⟨wl, ⟨a, ha, rfl⟩, i, hi, rfl⟩
    exact ⟨a + max 1 (n - 2), by omega, by omega, rfl, hi⟩
  · rintro ⟨wl, h1, h2, hEq, hlt⟩
    refine ⟨wl, ⟨wl - max 1 (n - 2), by omega, by omega⟩, p.1, hlt, ?_⟩
    rw [Prod.ext_iff]
    exact ⟨rfl, hEq.symm⟩

/-- Characterization of a successful trim-tolerant window scan: the window
at the returned index matches after right-stripping, no earlier window
does, and the window fits the buffer. -/
theorem windowScan_some (lls sn : List (List Char)) (n i : Nat)
    (h : windowScan lls sn n = some i) :
    rstripLines (sliceL lls i n) = sn ∧
      (∀ m, m < i → rstripLines (sliceL lls m n) ≠ sn) ∧
      i + n ≤ lls.length := by
  rw [windowScan] at h
  split at h
  · rename_i hn
    obtain ⟨h1, h2, h3, h4⟩ := firstHit_some _ 0 (lls.length + 1 - n) i h
    refine ⟨by simpa using of_decide_eq_true h3, fun m hm => ?_, by omega⟩
    have := h4 m (Nat.zero_le m) hm
    simpa using of_decide_eq_false this
  · simp at h

/-! ## Claim theorems -/

/-- C1 counterexample: when `original_code` itself contains the token
`<<<<<<< SEARCH`, `apply_diff` returns it unchanged, so the returned text
does contain a diff-delimiter token, contrary to the claim's "the returned
text never contains any of the three tokens". -/
theorem claim1_counterexample :
    apply_diff "<<<<<<< SEARCH" "" = "<<<<<<< SEARCH" ∧
    occurs "<<<<<<< SEARCH".data (apply_diff "<<<<<<< SEARCH" "").data = true :=
  ⟨by decide, by decide⟩

/-- C1 (amended): if the candidate text contains any of the three
diff-delimiter tokens, `apply_diff` discards it and returns the
(newline-normalized) original; consequently the returned text contains a
token only when the normalized original itself contains a bare conflict
marker. -/
theorem claim1_amended (oc dt : List Char) :
    (anyToken (candidateL oc dt) = true → applyDiffL oc dt = normNl oc) ∧
    (anyToken (applyDiffL oc dt) = true → anyMarker (normNl oc) = true) := by
  constructor
  · intro h
    rw [applyDiffL, if_pos (anyToken_marker _ h)]
  · intro h
    rw [applyDiffL] at h
    by_cases hm : anyMarker (candidateL oc dt) = true
    · rw [if_pos hm] at h
      exact anyToken_marker _ h
    · rw [if_neg hm] at h
      exact absurd (anyToken_marker _ h) hm

/-- C1 amended witness at a concrete marker-bearing input. -/
theorem claim1_amended_witness :
    anyToken (candidateL "=======".data []) = true ∧
    applyDiffL "=======".data [] = normNl "=======".data :=
  ⟨by decide, (claim1_amended "=======".data []).1 (by decide)⟩

/-- C2 counterexample: `apply_diff` normalizes CRLF first, so
`apply_diff T "" = T` fails for a CRLF input. -/
theorem claim2_counterexample :
    apply_diff "a\x0d\nb" "" = "a\nb" ∧ apply_diff "a\x0d\nb" "" ≠ "a\x0d\nb" :=
  ⟨by decide, by decide⟩

/-- C2 (amended): whenever `extract_diffs` yields zero blocks (in
particular for the empty diff and any text with no valid markers), the
output equals the newline-normalized input, hence equals the input
whenever it contains no carriage return. -/
theorem claim2_amended (oc dt : List Char) (h : extractDiffsL dt = []) :
    applyDiffL oc dt = normNl oc ∧ ('\x0d' ∉ oc → applyDiffL oc dt = oc) := by
  have hb : extractDiffsL (normNl dt) = [] := by
    rw [extractDiffsL_normNl]
    exact h
  have hc : candidateL oc dt = normNl oc := by
    rw [candidateL, hb, List.foldl_nil, interNl_splitNl]
  constructor
  · rw [applyDiffL, hc, ite_self]
  · intro hcr
    rw [applyDiffL, hc, ite_self]
    exact normNl_of_no_cr oc hcr

/-- C2 amended witness: the empty diff is a no-op on an LF-only text. -/
theorem claim2_amended_witness :
    extractDiffsL [] = [] ∧ applyDiffL "abc".data [] = "abc".data :=
  ⟨by decide, (claim2_amended "abc".data [] (by decide)).2 (by decide)⟩

/-- C8: `apply_diff` is a total function whose failure modes all degrade:
a block whose cascade ends unmatched leaves the buffer unchanged (the
block is skipped), and the overall result is always either the candidate
output or the newline-normalized original text — no other outcome
exists. -/
theorem claim8_no_raise_degrade :
    (∀ lls : List (List Char), ∀ st rt : List Char,
        (applyOneBlock lls st rt).2 = false →
          (applyOneBlock lls st rt).1 = lls) ∧
    (∀ oc dt : List Char,
        applyDiffL oc dt = normNl oc ∨ applyDiffL oc dt = candidateL oc dt) := by
  constructor
  · exact fun lls st rt h => applyOneBlock_unchanged lls st rt h
  · intro oc dt
    rw [applyDiffL]
    split
    · exact Or.inl rfl
    · exact Or.inr rfl

/-- C8 witness: a block that matches nothing is skipped at a concrete
input. -/
theorem claim8_witness :
    (applyOneBlock ["y".data] "zzzz\nqqqq".data "w".data).2 = false ∧
    (applyOneBlock ["y".data] "zzzz\nqqqq".data "w".data).1 = ["y".data] :=
  ⟨by decide, claim8_no_raise_degrade.1 ["y".data] "zzzz\nqqqq".data "w".data
    (by decide)⟩

/-- C9: when strategies 1–7 all fail but the block's stripped replace
text already occurs in the right-stripped buffer, the block is treated as
matched: the buffer is unchanged and no failure is reported. -/
theorem claim9_replace_present (lls : List (List Char)) (st rt : List Char)
    (h1 : preStages (splitNl st) (splitNl rt) lls = (lls, false))
    (h2 : presentCond lls (splitNl rt) = true) :
    applyOneBlock lls st rt = (lls, true) := by
  rw [applyOneBlock, h1, presentStage]
  simp only [if_neg (by simp : ¬((lls, false).2 = true))]
  rw [h2]

/-- C9 witness: replace text already present at a concrete input. -/
theorem claim9_witness :
    applyOneBlock ["y".data] "zzzz\nqqqq".data "y".data = (["y".data], true) :=
  claim9_replace_present ["y".data] "zzzz\nqqqq".data "y".data
    (by decide) (by decide)

/-- C10: the safety net fires on the bare marker substrings `<<<<<<<`,
`=======`, `>>>>>>>` anywhere in the candidate — reverting to the
normalized original — not only on the full delimiter tokens. -/
theorem claim10_bare_marker_revert (oc dt : List Char)
    (h : anyMarker (candidateL oc dt) = true) :
    applyDiffL oc dt = normNl oc := by
  rw [applyDiffL, if_pos h]

/-- C10 witness: a replace body that smuggles a bare `<<<<<<<` (with
neither full token present) still causes the revert. -/
theorem claim10_witness :
    anyMarker (candidateL "x".data
      "<<<<<<< SEARCH\nx\n=======\na <<<<<<< b\n>>>>>>> REPLACE".data) = true ∧
    occurs "<<<<<<< SEARCH".data (candidateL "x".data
      "<<<<<<< SEARCH\nx\n=======\na <<<<<<< b\n>>>>>>> REPLACE".data) = false ∧
    occurs ">>>>>>> REPLACE".data (candidateL "x".data
      "<<<<<<< SEARCH\nx\n=======\na <<<<<<< b\n>>>>>>> REPLACE".data) = false ∧
    occurs "=======".data (candidateL "x".data
      "<<<<<<< SEARCH\nx\n=======\na <<<<<<< b\n>>>>>>> REPLACE".data) = false ∧
    applyDiffL "x".data
      "<<<<<<< SEARCH\nx\n=======\na <<<<<<< b\n>>>>>>> REPLACE".data =
      "x".data :=
  ⟨by decide, by decide, by decide, by decide, by
    rw [claim10_bare_marker_revert "x".data
      "<<<<<<< SEARCH\nx\n=======\na <<<<<<< b\n>>>>>>> REPLACE".data
      (by decide)]
    decide⟩

/-- C3 counterexample: the trim-tolerant exact-window loop is not guarded
by `matched`, so it also runs after a successful anchor match.  Here the
anchor strategy succeeds (second conjunct) yet the final output `"y\ny"`
differs from the anchor-only result (third conjunct) and cannot be
obtained by replacing any single contiguous line range of the input with
the replace lines (fourth conjunct, checked over all ranges). -/
theorem claim3_counterexample :
    apply_diff
        "### >>> DEEPEVOLVE-BLOCK-START: foo\n### <<< DEEPEVOLVE-BLOCK-END\n### >>> DEEPEVOLVE-BLOCK-START: foo\nx"
        "<<<<<<< SEARCH\n### >>> DEEPEVOLVE-BLOCK-START: foo\nx\n=======\ny\n>>>>>>> REPLACE" =
      "y\ny" ∧
    (anchorStage (splitNl "### >>> DEEPEVOLVE-BLOCK-START: foo\nx".data)
        (splitNl "y".data)
        (splitNl
          "### >>> DEEPEVOLVE-BLOCK-START: foo\n### <<< DEEPEVOLVE-BLOCK-END\n### >>> DEEPEVOLVE-BLOCK-START: foo\nx".data)).2 =
      true ∧
    (anchorStage (splitNl "### >>> DEEPEVOLVE-BLOCK-START: foo\nx".data)
        (splitNl "y".data)
        (splitNl
          "### >>> DEEPEVOLVE-BLOCK-START: foo\n### <<< DEEPEVOLVE-BLOCK-END\n### >>> DEEPEVOLVE-BLOCK-START: foo\nx".data)).1 ≠
      splitNl "y\ny".data ∧
    ((List.range 5).all fun i => (List.range 5).all fun j =>
      decide (interNl (splice
        (splitNl
          "### >>> DEEPEVOLVE-BLOCK-START: foo\n### <<< DEEPEVOLVE-BLOCK-END\n### >>> DEEPEVOLVE-BLOCK-START: foo\nx".data)
        i j (splitNl "y".data)) ≠ "y\ny".data)) = true :=
  ⟨by decide, by decide, by decide, by decide⟩

/-- C3 (amended): strategies run in the fixed order with the first
success used, except that the trim-tolerant exact-window scan is
attempted even after a successful anchor match: an anchor-matched block's
result is exactly the anchor replacement further processed by the window
scan alone (first conjunct), while for an anchor-less block a window
match is final and no later strategy runs (second conjunct). -/
theorem claim3_amended :
    (∀ lls : List (List Char), ∀ st rt : List Char, ∀ s e : Nat,
        anchorRegionOf (splitNl st) lls = some (s, e) →
          applyOneBlock lls st rt =
            windowStage (splitNl st) (splitNl rt)
              (splice lls s (e + 1) (splitNl rt), true)) ∧
    (∀ lls : List (List Char), ∀ st rt : List Char, ∀ i : Nat,
        anchorRegionOf (splitNl st) lls = none →
        windowScan lls (rstripLines (splitNl st)) (splitNl st).length =
          some i →
          applyOneBlock lls st rt =
            (splice lls i (i + (splitNl st).length) (splitNl rt), true)) := by
  constructor
  · intro lls st rt s e hr
    have ha : anchorStage (splitNl st) (splitNl rt) lls =
        (splice lls s (e + 1) (splitNl rt), true) := by
      rw [anchorStage, hr]
    rw [applyOneBlock, preStages, ha]
    have hw : (windowStage (splitNl st) (splitNl rt)
        (splice lls s (e + 1) (splitNl rt), true)).2 = true :=
      windowStage_flag _ _ _ rfl
    rw [commentStage_skip _ _ _ hw, substrStage_skip _ _ _ hw,
      fuzzyStage_skip _ _ _ hw, sigStage_skip _ _ _ hw,
      presentStage_skip _ _ hw]
  · intro lls st rt i hnone hscan
    have ha : anchorStage (splitNl st) (splitNl rt) lls = (lls, false) := by
      rw [anchorStage, hnone]
    have hw : windowStage (splitNl st) (splitNl rt) (lls, false) =
        (splice lls i (i + (splitNl st).length) (splitNl rt), true) := by
      rw [windowStage]
      simp only [hscan]
    rw [applyOneBlock, preStages, ha, hw,
      commentStage_skip _ _ _ rfl, substrStage_skip _ _ _ rfl,
      fuzzyStage_skip _ _ _ rfl, sigStage_skip _ _ _ rfl,
      presentStage_skip _ _ rfl]

/-- C3 amended witness: both conjuncts instantiated at concrete blocks. -/
theorem claim3_amended_witness :
    applyOneBlock
        (splitNl
          "### >>> DEEPEVOLVE-BLOCK-START: foo\n### <<< DEEPEVOLVE-BLOCK-END\n### >>> DEEPEVOLVE-BLOCK-START: foo\nx".data)
        "### >>> DEEPEVOLVE-BLOCK-START: foo\nx".data "y".data =
      windowStage (splitNl "### >>> DEEPEVOLVE-BLOCK-START: foo\nx".data)
        (splitNl "y".data)
        (splice
          (splitNl
            "### >>> DEEPEVOLVE-BLOCK-START: foo\n### <<< DEEPEVOLVE-BLOCK-END\n### >>> DEEPEVOLVE-BLOCK-START: foo\nx".data)
          0 2 (splitNl "y".data), true) ∧
    applyOneBlock (splitNl "a\nb\nc".data) "b".data "q".data =
      (splice (splitNl "a\nb\nc".data) 1 2 (splitNl "q".data), true) :=
  ⟨claim3_amended.1 _ "### >>> DEEPEVOLVE-BLOCK-START: foo\nx".data "y".data
      0 1 (by decide),
    claim3_amended.2 _ "b".data "q".data 1 (by decide) (by decide)⟩

/-- C5 counterexample: the window scan compares right-stripped lines, so
a trailing-whitespace near-miss earlier in the text wins over the first
verbatim occurrence.  Here search `"x"` occurs verbatim only at line 1,
but line 0 (`"x "`) matches after right-stripping and is replaced
instead, giving `"y\nx"` rather than `"x \ny"`. -/
theorem claim5_counterexample :
    extract_diffs "<<<<<<< SEARCH\nx\n=======\ny\n>>>>>>> REPLACE" =
      [("x", "y")] ∧
    extractAnchorLabel (splitNl "x".data) = none ∧
    sliceL (splitNl (normNl "x \nx".data)) 1 1 = splitNl "x".data ∧
    sliceL (splitNl (normNl "x \nx".data)) 0 1 ≠ splitNl "x".data ∧
    apply_diff "x \nx" "<<<<<<< SEARCH\nx\n=======\ny\n>>>>>>> REPLACE" =
      "y\nx" ∧
    ("y\nx" : String) ≠ "x \ny" :=
  ⟨by decide, by decide, by decide, by decide, by decide, by decide⟩

/-- C5 (amended): for a single anchor-less block whose search lines match
some window of the working text under right-trimmed comparison, the
candidate equals the text with the first *right-trimmed* window
occurrence replaced (which is the first verbatim occurrence only when no
earlier window matches after right-stripping), and `apply_diff` returns
that candidate whenever it contains no bare conflict marker. -/
theorem claim5_amended (oc dt st rt : List Char) (i : Nat)
    (h1 : extractDiffsL dt = [(st, rt)])
    (h2 : extractAnchorLabel (splitNl st) = none)
    (h3 : windowScan (splitNl (normNl oc)) (rstripLines (splitNl st))
        (splitNl st).length = some i) :
    candidateL oc dt =
      interNl (splice (splitNl (normNl oc)) i (i + (splitNl st).length)
        (splitNl rt)) ∧
    rstripLines (sliceL (splitNl (normNl oc)) i (splitNl st).length) =
      rstripLines (splitNl st) ∧
    (∀ m, m < i →
      rstripLines (sliceL (splitNl (normNl oc)) m (splitNl st).length) ≠
        rstripLines (splitNl st)) ∧
    (anyMarker (interNl (splice (splitNl (normNl oc)) i
        (i + (splitNl st).length) (splitNl rt))) = false →
      applyDiffL oc dt =
        interNl (splice (splitNl (normNl oc)) i (i + (splitNl st).length)
          (splitNl rt))) := by
  have hb : extractDiffsL (normNl dt) = [(st, rt)] := by
    rw [extractDiffsL_normNl]
    exact h1
  have hregion : anchorRegionOf (splitNl st) (splitNl (normNl oc)) = none := by
    rw [anchorRegionOf, h2]
  have ha : anchorStage (splitNl st) (splitNl rt) (splitNl (normNl oc)) =
      (splitNl (normNl oc), false) := by
    rw [anchorStage, hregion]
  have hw : windowStage (splitNl st) (splitNl rt)
      (splitNl (normNl oc), false) =
      (splice (splitNl (normNl oc)) i (i + (splitNl st).length)
        (splitNl rt), true) := by
    rw [windowStage]
    simp only [h3]
  have hblock : applyOneBlock (splitNl (normNl oc)) st rt =
      (splice (splitNl (normNl oc)) i (i + (splitNl st).length)
        (splitNl rt), true) := by
    rw [applyOneBlock, preStages, ha, hw,
      commentStage_skip _ _ _ rfl, substrStage_skip _ _ _ rfl,
      fuzzyStage_skip _ _ _ rfl, sigStage_skip _ _ _ rfl,
      presentStage_skip _ _ rfl]
  have hcand : candidateL oc dt =
      interNl (splice (splitNl (normNl oc)) i (i + (splitNl st).length)
        (splitNl rt)) := by
    rw [candidateL, hb, List.foldl_cons, List.foldl_nil, hblock]
  obtain ⟨hm1, hm2, _⟩ :=
    windowScan_some (splitNl (normNl oc)) (rstripLines (splitNl st))
      (splitNl st).length i h3
  refine ⟨hcand, hm1, hm2, fun hnm => ?_⟩
  rw [applyDiffL, hcand, if_neg (by rw [hnm]; simp)]

/-- C5 amended witness: a single-block diff applied at a concrete text. -/
theorem claim5_amended_witness :
    candidateL "a\nb\nc".data
        "<<<<<<< SEARCH\nb\n=======\nq\n>>>>>>> REPLACE".data =
      interNl (splice (splitNl (normNl "a\nb\nc".data)) 1
        (1 + (splitNl "b".data).length) (splitNl "q".data)) ∧
    applyDiffL "a\nb\nc".data
        "<<<<<<< SEARCH\nb\n=======\nq\n>>>>>>> REPLACE".data =
      interNl (splice (splitNl (normNl "a\nb\nc".data)) 1
        (1 + (splitNl "b".data).length) (splitNl "q".data)) :=
  ⟨(claim5_amended "a\nb\nc".data
      "<<<<<<< SEARCH\nb\n=======\nq\n>>>>>>> REPLACE".data
      "b".data "q".data 1 (by decide) (by decide) (by decide)).1,
    (claim5_amended "a\nb\nc".data
      "<<<<<<< SEARCH\nb\n=======\nq\n>>>>>>> REPLACE".data
      "b".data "q".data 1 (by decide) (by decide) (by decide)).2.2.2
      (by decide)⟩

/-- C7 counterexample: `extract_diffs` trims only trailing newline
characters; a search body consisting of a whitespace-only line survives
untrimmed, so the returned search text both begins and ends with
blank-line (whitespace-only) noise. -/
theorem claim7_counterexample :
    extract_diffs "<<<<<<< SEARCH\n   =======\ny\n>>>>>>> REPLACE" =
      [("   ", "y")] ∧
    "   ".data ≠ [] ∧
    "   ".data.all isPySpace = true ∧
    endsWithBlankLine "   ".data = true :=
  ⟨by decide, by decide, by decide, by decide⟩

/-- C7 (amended): every pair returned by `extract_diffs` has trailing
newlines stripped and never starts at a newline — neither text begins or
ends with a newline character — but whitespace-only blank-line content at
either end is preserved, not trimmed. -/
theorem claim7_amended (t : List Char) (p : List Char × List Char)
    (hp : p ∈ extractDiffsL t) :
    p.1.head? ≠ some '\n' ∧ p.1.getLast? ≠ some '\n' ∧
      p.2.head? ≠ some '\n' ∧ p.2.getLast? ≠ some '\n' := by
  rw [extractDiffsL] at hp
  simp only [List.mem_map] at hp
  obtain ⟨q, hq, rfl⟩ := hp
  have hh := scanAll_heads _ _ q hq
  refine ⟨?_, rstripNl_getLast q.1, ?_, rstripNl_getLast q.2⟩
  · rcases rstripNl_head q.1 with hnil | hEq
    · rw [hnil]
      simp
    · rw [hEq]
      exact hh.1
  · rcases rstripNl_head q.2 with hnil | hEq
    · rw [hnil]
      simp
    · rw [hEq]
      exact hh.2

/-- C7 amended witness at a concrete extracted pair. -/
theorem claim7_amended_witness :
    ("x".data, "y".data) ∈
      extractDiffsL "<<<<<<< SEARCH\nx\n=======\ny\n>>>>>>> REPLACE".data ∧
    ("x".data.head? ≠ some '\n' ∧ "x".data.getLast? ≠ some '\n' ∧
      "y".data.head? ≠ some '\n' ∧ "y".data.getLast? ≠ some '\n') :=
  ⟨by decide,
    claim7_amended "<<<<<<< SEARCH\nx\n=======\ny\n>>>>>>> REPLACE".data
      ("x".data, "y".data) (by decide)⟩

/-- C4: when the search lines carry a (non-empty) anchor label and the
buffer contains a start sentinel with that label followed later by an end
sentinel, the anchor strategy locates the region — first start sentinel
bearing the label, first end sentinel after it — and replaces that whole
bounded span inclusively with the replace lines, with no condition on the
span's interior content. -/
theorem claim4_anchor_span (lls : List (List Char)) (st rt : List Char)
    (lab : List Char)
    (hlab : extractAnchorLabel (splitNl st) = some lab)
    (hne : lab ≠ [])
    (hex : ∃ i, ∃ hi : i < lls.length,
      labelOf (lls.get ⟨i, hi⟩) = some lab ∧
        ∃ j, ∃ hj : j < lls.length, i < j ∧
          occurs anchorEndPre (lls.get ⟨j, hj⟩) = true) :
    ∃ s e, findAnchorRegion lls lab = some (s, e) ∧
      s < e ∧
      (∃ hs : s < lls.length, labelOf (lls.get ⟨s, hs⟩) = some lab) ∧
      (∀ m, ∀ hm : m < lls.length, m < s →
        labelOf (lls.get ⟨m, hm⟩) ≠ some lab) ∧
      (∃ he : e < lls.length, occurs anchorEndPre (lls.get ⟨e, he⟩) = true) ∧
      (∀ m, ∀ hm : m < lls.length, s < m → m < e →
        occurs anchorEndPre (lls.get ⟨m, hm⟩) = false) ∧
      anchorStage (splitNl st) (splitNl rt) lls =
        (splice lls s (e + 1) (splitNl rt), true) := by
  obtain ⟨i, hi, hilab, j, hj, hij, hjend⟩ := hex
  obtain ⟨s, hs⟩ :=
    firstIdxP_isSome (fun l => labelOf l = some lab) lls
      ⟨i, hi, by simp only [decide_eq_true_eq]; exact hilab⟩
  obtain ⟨hslen, hsp, hsmin⟩ :=
    firstIdxP_some (fun l => labelOf l = some lab) lls s hs
  have his : s ≤ i := by
    by_contra hlt
    push_neg at hlt
    have hfalse := hsmin i hi hlt
    rw [decide_eq_false_iff_not] at hfalse
    exact hfalse hilab
  have hdl : (lls.drop (s + 1)).length = lls.length - (s + 1) :=
    List.length_drop _ _
  obtain ⟨k, hk⟩ :=
    firstIdxP_isSome (fun l => occurs anchorEndPre l) (lls.drop (s + 1))
      ⟨j - (s + 1), by omega, by
        have hg : (lls.drop (s + 1)).get ⟨j - (s + 1), by omega⟩ =
            lls.get ⟨j, hj⟩ := by
          simp only [List.get_eq_getElem, List.getElem_drop]
          congr 1
          omega
        rw [hg]
        exact hjend⟩
  obtain ⟨hklen, hkp, hkmin⟩ :=
    firstIdxP_some (fun l => occurs anchorEndPre l) (lls.drop (s + 1)) k hk
  have helen : s + 1 + k < lls.length := by omega
  have hfind : findAnchorRegion lls lab = some (s, s + 1 + k) := by
    rw [findAnchorRegion, hs]
    simp only [hk]
  refine ⟨s, s + 1 + k, hfind, by omega,
    ⟨hslen, of_decide_eq_true hsp⟩,
    fun m hm hms => by
      have := hsmin m hm hms
      rw [decide_eq_false_iff_not] at this
      exact this,
    ⟨helen, ?_⟩, fun m hm hsm hme => ?_, ?_⟩
  · have hg : (lls.drop (s + 1)).get ⟨k, hklen⟩ =
        lls.get ⟨s + 1 + k, helen⟩ := by
      simp only [List.get_eq_getElem, List.getElem_drop]
    rw [← hg]
    exact hkp
  · have hmlen : m - (s + 1) < (lls.drop (s + 1)).length := by omega
    have := hkmin (m - (s + 1)) hmlen (by omega)
    have hg : (lls.drop (s + 1)).get ⟨m - (s + 1), hmlen⟩ =
        lls.get ⟨m, hm⟩ := by
      simp only [List.get_eq_getElem, List.getElem_drop]
      congr 1
      omega
    rw [hg] at this
    exact this
  · have hregion : anchorRegionOf (splitNl st) lls = some (s, s + 1 + k) := by
      rw [anchorRegionOf, hlab]
      show (if lab ≠ [] then findAnchorRegion lls lab else none) =
        some (s, s + 1 + k)
      rw [if_pos hne, hfind]
    rw [anchorStage, hregion]

/-- C4 witness: a concrete anchor-labelled block replacing a sentinel
region whose interior does not match the search text. -/
theorem claim4_witness :
    ∃ s e, findAnchorRegion
        (splitNl
          "head\n### >>> DEEPEVOLVE-BLOCK-START: foo\ndrifted interior\n### <<< DEEPEVOLVE-BLOCK-END\ntail".data)
        "foo".data = some (s, e) ∧
      s < e ∧
      (∃ hs : s < (splitNl
          "head\n### >>> DEEPEVOLVE-BLOCK-START: foo\ndrifted interior\n### <<< DEEPEVOLVE-BLOCK-END\ntail".data).length,
        labelOf ((splitNl
          "head\n### >>> DEEPEVOLVE-BLOCK-START: foo\ndrifted interior\n### <<< DEEPEVOLVE-BLOCK-END\ntail".data).get
            ⟨s, hs⟩) = some "foo".data) ∧
      (∀ m, ∀ hm : m < (splitNl
          "head\n### >>> DEEPEVOLVE-BLOCK-START: foo\ndrifted interior\n### <<< DEEPEVOLVE-BLOCK-END\ntail".data).length,
        m < s →
          labelOf ((splitNl
            "head\n### >>> DEEPEVOLVE-BLOCK-START: foo\ndrifted interior\n### <<< DEEPEVOLVE-BLOCK-END\ntail".data).get
              ⟨m, hm⟩) ≠ some "foo".data) ∧
      (∃ he : e < (splitNl
          "head\n### >>> DEEPEVOLVE-BLOCK-START: foo\ndrifted interior\n### <<< DEEPEVOLVE-BLOCK-END\ntail".data).length,
        occurs anchorEndPre ((splitNl
          "head\n### >>> DEEPEVOLVE-BLOCK-START: foo\ndrifted interior\n### <<< DEEPEVOLVE-BLOCK-END\ntail".data).get
            ⟨e, he⟩) = true) ∧
      (∀ m, ∀ hm : m < (splitNl
          "head\n### >>> DEEPEVOLVE-BLOCK-START: foo\ndrifted interior\n### <<< DEEPEVOLVE-BLOCK-END\ntail".data).length,
        s < m → m < e →
          occurs anchorEndPre ((splitNl
            "head\n### >>> DEEPEVOLVE-BLOCK-START: foo\ndrifted interior\n### <<< DEEPEVOLVE-BLOCK-END\ntail".data).get
              ⟨m, hm⟩) = false) ∧
      anchorStage
          (splitNl "### >>> DEEPEVOLVE-BLOCK-START: foo\nold interior".data)
          (splitNl "new".data)
          (splitNl
            "head\n### >>> DEEPEVOLVE-BLOCK-START: foo\ndrifted interior\n### <<< DEEPEVOLVE-BLOCK-END\ntail".data) =
        (splice
          (splitNl
            "head\n### >>> DEEPEVOLVE-BLOCK-START: foo\ndrifted interior\n### <<< DEEPEVOLVE-BLOCK-END\ntail".data)
          s (e + 1) (splitNl "new".data), true) :=
  claim4_anchor_span _
    "### >>> DEEPEVOLVE-BLOCK-START: foo\nold interior".data "new".data
    "foo".data (by decide) (by decide)
    ⟨1, by decide, by decide, 3, by decide, by decide, by decide⟩

/-- C6: the fuzzy strategy scores every window of each length from
`len(search_lines) - 2` to `len(search_lines) + 2` clamped to
`[1, len(result_lines)]` by `1 - normalized_levenshtein`, keeps the
best-scoring window, and accepts it exactly when the best score reaches
the `0.80` threshold: an accepted window is a maximal-score member of the
window set with score `≥ 4/5`; a qualifying window forces acceptance; and
when every window scores at most `0.79` the strategy rejects.  The final
group evaluates the boundary concretely: distance 1 on length-5 strings
scores exactly `4/5 = 0.80` and is accepted. -/
theorem claim6_fuzzy :
    (∀ a b : List Char, scoreQ a b =
        1 - (levDist a b : ℚ) / (max a.length b.length : ℚ)) ∧
    (∀ lls sl : List (List Char), ∀ r : Nat × Nat,
        fuzzyStep lls sl = some r →
          r ∈ fuzzyWindows lls.length sl.length ∧
          mkRat 4 5 ≤ windowScore lls (interNl sl) r ∧
          ∀ w ∈ fuzzyWindows lls.length sl.length,
            windowScore lls (interNl sl) w ≤ windowScore lls (interNl sl) r) ∧
    (∀ lls sl : List (List Char),
        (∃ w ∈ fuzzyWindows lls.length sl.length,
          mkRat 4 5 ≤ windowScore lls (interNl sl) w) →
          ∃ r, fuzzyStep lls sl = some r) ∧
    (∀ lls sl : List (List Char),
        (∀ w ∈ fuzzyWindows lls.length sl.length,
          windowScore lls (interNl sl) w ≤ mkRat 79 100) →
          fuzzyStep lls sl = none) ∧
    (∀ lc n : Nat, ∀ w : Nat × Nat, w ∈ fuzzyWindows lc n →
        max 1 (n - 2) ≤ w.2 - w.1 ∧ w.2 - w.1 ≤ min lc (n + 2) ∧
          w.1 + (w.2 - w.1) = w.2 ∧ w.2 ≤ lc) ∧
    (∀ lc n wl i : Nat, max 1 (n - 2) ≤ wl → wl ≤ min lc (n + 2) →
        i + wl ≤ lc → (i, i + wl) ∈ fuzzyWindows lc n) ∧
    (fuzzyStep ["abcdX".data] ["abcde".data] = some (0, 1) ∧
      scoreQ "abcde".data "abcdX".data = mkRat 4 5 ∧
      levDist "abcde".data "abcdX".data = 1 ∧
      mkRat 4 5 = (4 : ℚ) / 5 ∧ mkRat 79 100 < mkRat 4 5) := by
  refine ⟨?_, ?_, ?_, ?_, ?_, ?_, by decide, by decide, by decide,
    by rw [Rat.mkRat_eq_div]; norm_num, by decide⟩
  · intro a b
    rw [scoreQ]
    by_cases hm : max a.length b.length = 0
    · have ha : a = [] := List.length_eq_zero.1 (by omega)
      have hb : b = [] := List.length_eq_zero.1 (by omega)
      subst ha hb
      norm_num [levDist, levRow]
    · simp only [if_neg hm, Rat.mkRat_eq_div]
      have hmq : (max a.length b.length : ℚ) ≠ 0 := by
        exact_mod_cast hm
      push_cast
      field_simp
  · intro lls sl r h
    rcases bestFold_result (windowScore lls (interNl sl))
        (fuzzyWindows lls.length sl.length) (none, -1) with hEq | ⟨p, hpL, hEq⟩
    · rw [fuzzyStep] at h
      simp only [hEq] at h
      exact absurd h (by simp)
    · rw [fuzzyStep] at h
      simp only [hEq] at h
      split at h
      · rename_i hth
        cases h
        refine ⟨hpL, ?_, fun w hw => ?_⟩
        · simpa [windowScore] using hth
        · have := bestFold_ge_mem (windowScore lls (interNl sl))
            (fuzzyWindows lls.length sl.length) (none, -1) w hw
          rw [hEq] at this
          simpa [windowScore] using this
      · simp at h
  · intro lls sl ⟨w, hw, hscore⟩
    rcases bestFold_result (windowScore lls (interNl sl))
        (fuzzyWindows lls.length sl.length) (none, -1) with hEq | ⟨p, hpL, hEq⟩
    · exfalso
      have := bestFold_ge_mem (windowScore lls (interNl sl))
        (fuzzyWindows lls.length sl.length) (none, -1) w hw
      rw [hEq] at this
      have hcontra : mkRat 4 5 ≤ (-1 : ℚ) := le_trans hscore this
      exact absurd hcontra (by decide)
    · refine ⟨p, ?_⟩
      rw [fuzzyStep]
      simp only [hEq]
      have hge : mkRat 4 5 ≤ windowScore lls (interNl sl) p := by
        have := bestFold_ge_mem (windowScore lls (interNl sl))
          (fuzzyWindows lls.length sl.length) (none, -1) w hw
        rw [hEq] at this
        exact le_trans hscore this
      rw [if_pos hge]
  · intro lls sl hall
    rcases bestFold_result (windowScore lls (interNl sl))
        (fuzzyWindows lls.length sl.length) (none, -1) with hEq | ⟨p, hpL, hEq⟩
    · rw [fuzzyStep]
      simp only [hEq]
    · rw [fuzzyStep]
      simp only [hEq]
      rw [if_neg ?_]
      intro hth
      have hle := hall p hpL
      have : mkRat 4 5 ≤ mkRat 79 100 := le_trans hth hle
      exact absurd this (by decide)
  · intro lc n w hw
    obtain ⟨wl, h1, h2, hEq, hlt⟩ := (mem_fuzzyWindows lc n w).1 hw
    have hwl : wl ≤ lc := le_trans h2 (min_le_left _ _)
    refine ⟨by omega, by omega, by omega, by omega⟩
  · intro lc n wl i h1 h2 h3
    refine (mem_fuzzyWindows lc n (i, i + wl)).2 ⟨wl, h1, h2, rfl, ?_⟩
    have hwl : wl ≤ lc := le_trans h2 (min_le_left _ _)
    omega

/-- C6 witness: a concrete window with score exactly `0.80` forces the
fuzzy strategy to accept. -/
theorem claim6_witness :
    (∃ w ∈ fuzzyWindows ([("abcdX" : String).data] : List (List Char)).length
        ([("abcde" : String).data] : List (List Char)).length,
      mkRat 4 5 ≤ windowScore [("abcdX" : String).data]
        (interNl [("abcde" : String).data]) w) ∧
    ∃ r, fuzzyStep [("abcdX" : String).data] [("abcde" : String).data] =
      some r :=
  ⟨⟨(0, 1), by decide, by decide⟩,
    claim6_fuzzy.2.2.1 [("abcdX" : String).data] [("abcde" : String).data]
      ⟨(0, 1), by decide, by decide⟩⟩

end DiffEngine
